import Mathlib

/-!
Verification development for the Import-Export-AI-Assistant repository.

The backend is a small Express/Mongoose service persisting chat messages in
one document collection.  We embed the collection as a `List Message` in
insertion order, datetimes as `Nat`, and Mongo ObjectIds of users as `Nat`.
The two server variants (the open one and the authenticated one, which adds
a `user` owner field and a `$match`/filter on it) are embedded uniformly
through an optional user scope: scope `none` is the unauthenticated variant,
scope `some u` the authenticated one acting as user `u`.

Mongo's `.sort(...)` and the `$sort` stage are modelled as a stable sort on
the stated keys (`List.insertionSort`); tie order on equal keys is not
specified by the database and no theorem below depends on it except where a
distinct-keys hypothesis removes ties.
-/

namespace ImpExpChat

/-- A stored chat document (the Chat model): an optional owner reference
(absent in the unauthenticated variant), a conversation id, a sender tag
("user" or "ai"), the text, and a timestamp. -/
structure Message where
  owner : Option Nat
  conversationId : String
  sender : String
  text : String
  timestamp : Nat
  deriving DecidableEq, Repr

/-- One row of the GET /api/conversations response:
{ conversationId, lastMessage, updatedAt }. -/
structure ConvSummary where
  conversationId : String
  lastMessage : String
  updatedAt : Nat
  deriving DecidableEq, Repr

/-- A registered user (the User model); the password is stored hashed. -/
structure UserRec where
  id : Nat
  username : String
  passwordHash : String
  deriving DecidableEq, Repr

/-- The database: the chat collection (insertion order) and the user
collection. -/
structure DB where
  chats : List Message
  users : List UserRec
  deriving Repr

/-- Whether a message is in the requesting scope: the unauthenticated
variant sees every document, the authenticated one only documents whose
`user` field is the requester. -/
def scopeOk : Option Nat → Message → Bool
  | none, _ => true
  | some u, m => m.owner == some u

/-- Ascending-timestamp order used by `.sort({ timestamp: 1 })`. -/
def tsLe (a b : Message) : Prop := a.timestamp ≤ b.timestamp

/-- Descending-timestamp order used by `.sort({ timestamp: -1 })`. -/
def tsGe (a b : Message) : Prop := b.timestamp ≤ a.timestamp

/-- Strict descending-timestamp order (used when timestamps are distinct). -/
def tsGt (a b : Message) : Prop := b.timestamp < a.timestamp

/-- The `$sort: { conversationId: 1, timestamp: 1 }` key of the
conversations aggregation pipeline (lexicographic). -/
def cidTs (a b : Message) : Prop :=
  a.conversationId < b.conversationId ∨
    (a.conversationId = b.conversationId ∧ a.timestamp ≤ b.timestamp)

/-- The final `$sort: { updatedAt: -1 }` key of the pipeline. -/
def updGe (a b : ConvSummary) : Prop := b.updatedAt ≤ a.updatedAt

/-- Strict version of `updGe`. -/
def updGt (a b : ConvSummary) : Prop := b.updatedAt < a.updatedAt

instance : DecidableRel tsLe := fun a b =>
  inferInstanceAs (Decidable (a.timestamp ≤ b.timestamp))

instance : DecidableRel tsGe := fun a b =>
  inferInstanceAs (Decidable (b.timestamp ≤ a.timestamp))

instance : DecidableRel cidTs := fun a b =>
  haveI : Decidable (a.conversationId < b.conversationId) :=
    decidable_of_iff (a.conversationId.data < b.conversationId.data)
      String.lt_iff_toList_lt.symm
  inferInstanceAs (Decidable (a.conversationId < b.conversationId ∨
    (a.conversationId = b.conversationId ∧ a.timestamp ≤ b.timestamp)))

instance : DecidableRel updGe := fun a b =>
  inferInstanceAs (Decidable (b.updatedAt ≤ a.updatedAt))

instance : IsTotal Message tsLe :=
  ⟨fun a b => Nat.le_total a.timestamp b.timestamp⟩

instance : IsTrans Message tsLe :=
  ⟨fun _ _ _ h h' => Nat.le_trans h h'⟩

instance : IsTotal Message tsGe :=
  ⟨fun a b => Nat.le_total b.timestamp a.timestamp⟩

instance : IsTrans Message tsGe :=
  ⟨fun _ _ _ h h' => Nat.le_trans h' h⟩

instance : IsTotal Message cidTs := by
  constructor
  intro a b
  rcases lt_trichotomy a.conversationId b.conversationId with h | h | h
  · exact Or.inl (Or.inl h)
  · rcases Nat.le_total a.timestamp b.timestamp with h' | h'
    · exact Or.inl (Or.inr ⟨h, h'⟩)
    · exact Or.inr (Or.inr ⟨h.symm, h'⟩)
  · exact Or.inr (Or.inl h)

instance : IsTrans Message cidTs := by
  constructor
  intro a b c hab hbc
  rcases hab with h1 | ⟨e1, t1⟩
  · rcases hbc with h2 | ⟨e2, _⟩
    · exact Or.inl (lt_trans h1 h2)
    · exact Or.inl (e2 ▸ h1)
  · rcases hbc with h2 | ⟨e2, t2⟩
    · exact Or.inl (e1 ▸ h2)
    · exact Or.inr ⟨e1.trans e2, Nat.le_trans t1 t2⟩

instance : IsTotal ConvSummary updGe :=
  ⟨fun a b => Nat.le_total b.updatedAt a.updatedAt⟩

instance : IsTrans ConvSummary updGe :=
  ⟨fun _ _ _ h h' => Nat.le_trans h' h⟩

instance : IsAntisymm Message tsGt :=
  ⟨fun _ _ h h' => absurd (Nat.lt_trans h h') (Nat.lt_irrefl _)⟩

instance : IsAntisymm ConvSummary updGt :=
  ⟨fun _ _ h h' => absurd (Nat.lt_trans h h') (Nat.lt_irrefl _)⟩

/-! ## The message store operations (embedded from the HTTP handlers) -/

/-- GET /api/chats core: `Chat.find({ conversationId [, user] }).sort({
timestamp: 1 })`.  Present identically in the open variant (no user key)
and both authenticated variants. -/
def listMessages (scope : Option Nat) (c : String) (st : List Message) :
    List Message :=
  List.insertionSort tsLe
    (st.filter (fun m => m.conversationId == c && scopeOk scope m))

/-- The request body of POST /api/chats as sent by a client; any field can
be absent. -/
structure ChatBody where
  conversationId : Option String
  sender : Option String
  text : Option String
  timestamp : Option Nat
  deriving DecidableEq, Repr

/-- The document built by `new Chat(req.body)` under the loose schema
(server variant of part_000): every schema path takes the body's value when
the body supplies one; `timestamp` falls back to its schema default
`Date.now` (the `now` argument) only when the body has no timestamp.  An
absent string field is modelled as `""`. -/
def newChatLoose (body : ChatBody) (now : Nat) : Message :=
  { owner := none
    conversationId := body.conversationId.getD ""
    sender := body.sender.getD ""
    text := body.text.getD ""
    timestamp := body.timestamp.getD now }

/-- POST /api/chats handler of the open variant: saves `new Chat(req.body)`
and answers 200 with the saved document. -/
def postChatLoose (body : ChatBody) (now : Nat) (st : List Message) :
    Nat × List Message × Message :=
  let chat := newChatLoose body now
  (200, st ++ [chat], chat)

/-- Saving a document under the strict schema (the ChatSchema model file):
`user`, `conversationId`, `sender` and `text` are required and `sender`
must be "user" or "ai", else the save rejects with a ValidationError;
`timestamp` defaults to `Date.now`. -/
def saveStrict (u : Nat) (body : ChatBody) (now : Nat) (st : List Message) :
    Except String (List Message × Message) :=
  match body.conversationId, body.sender, body.text with
  | some c, some s, some t =>
      if s = "user" ∨ s = "ai" then
        let chat : Message :=
          { owner := some u, conversationId := c, sender := s, text := t
            timestamp := now }
        .ok (st ++ [chat], chat)
      else .error "ValidationError"
  | _, _, _ => .error "ValidationError"

/-- router.post('/chats') of the strict authenticated variant: builds the
document from the destructured body fields (the body's timestamp is never
read), answers 201 on success; the catch-all turns any rejection —
including a ValidationError — into a 500 response with no insertion. -/
def postChatStrict (u : Nat) (body : ChatBody) (now : Nat)
    (st : List Message) : Nat × List Message :=
  match saveStrict u body now st with
  | .ok (st2, _) => (201, st2)
  | .error _ => (500, st)

/-- POST /api/chats of the authenticated server of part_001: the document
is `{ ...req.body, user: req.user._id }` under a loose schema, so a body
timestamp again overrides the `Date.now` default. -/
def postChatAuth (u : Nat) (body : ChatBody) (now : Nat)
    (st : List Message) : Nat × List Message × Message :=
  let chat : Message :=
    { owner := some u
      conversationId := body.conversationId.getD ""
      sender := body.sender.getD ""
      text := body.text.getD ""
      timestamp := body.timestamp.getD now }
  (200, st ++ [chat], chat)

/-- The happy path shared by every POST /api/chats variant: append one
document with the given fields (owner = the requesting scope) and the
given insertion-time timestamp. -/
def createMessage (owner : Option Nat) (c s t : String) (now : Nat)
    (st : List Message) : List Message :=
  st ++ [{ owner := owner, conversationId := c, sender := s, text := t
           timestamp := now }]

/-- The message `createMessage` inserts for one call description
(sender, text, timestamp). -/
def mkMsg (owner : Option Nat) (c : String) (p : String × String × Nat) :
    Message :=
  { owner := owner, conversationId := c, sender := p.1, text := p.2.1
    timestamp := p.2.2 }

/-- A sequence of createMessage calls for one conversation, in order. -/
def runCreates (owner : Option Nat) (c : String)
    (calls : List (String × String × Nat)) (st : List Message) :
    List Message :=
  calls.foldl (fun acc p => createMessage owner c p.1 p.2.1 p.2.2 acc) st

/-- GET /api/chats handler of the two app-server variants: rejects a falsy
conversationId query value (absent or empty) with 400 before querying. -/
def getChats (scope : Option Nat) (q : Option String) (st : List Message) :
    Nat × List Message :=
  match q with
  | none => (400, [])
  | some c => if c = "" then (400, []) else (200, listMessages scope c st)

/-- router.get('/chats') of the strict authenticated variant: no check on
the query; `Chat.find({ user, conversationId })` runs directly.  Mongoose
drops a filter key whose value is `undefined`, so an absent conversationId
leaves only the user filter. -/
def getChatsRouter (u : Nat) (q : Option String) (st : List Message) :
    Nat × List Message :=
  match q with
  | none =>
      (200, List.insertionSort tsLe (st.filter (fun m => m.owner == some u)))
  | some c => (200, listMessages (some u) c st)

/-- DELETE /api/conversations/:conversationId:
`Chat.deleteMany({ conversationId [, user] })` keeps exactly the documents
that do not match. -/
def deleteConversation (scope : Option Nat) (c : String)
    (st : List Message) : List Message :=
  st.filter (fun m => !(m.conversationId == c && scopeOk scope m))

/-- The authenticated delete handler acting on the whole database: it only
issues `Chat.deleteMany({ conversationId, user })`, so the user collection
is untouched. -/
def deleteConversationAuth (u : Nat) (c : String) (db : DB) : DB :=
  { db with
    chats := db.chats.filter
      (fun m => !(m.conversationId == c && m.owner == some u)) }

/-! ## The conversations aggregation pipeline -/

/-- The distinct conversationIds of a stream, in first-appearance order. -/
def distinctKeys : List Message → List String
  | [] => []
  | m :: ms =>
      m.conversationId ::
        (distinctKeys ms).filter (fun c => !(c == m.conversationId))

/-- The summary row a document contributes:
{ conversationId, lastMessage: text, updatedAt: timestamp }. -/
def mkSummary (m : Message) : ConvSummary :=
  { conversationId := m.conversationId, lastMessage := m.text
    updatedAt := m.timestamp }

/-- The group row of one conversationId: the text and timestamp of the
last stream document with that id, when any. -/
def groupFun (l : List Message) (c : String) : Option ConvSummary :=
  ((l.filter (fun m => m.conversationId == c)).getLast?).map
    (fun m => { conversationId := c, lastMessage := m.text
                updatedAt := m.timestamp })

/-- The `$group: { _id: conversationId, lastMessage: { $last: text },
updatedAt: { $last: timestamp } }` stage: for each conversationId of the
input stream, the text and timestamp of the last stream document in that
group. -/
def groupLast (l : List Message) : List ConvSummary :=
  (distinctKeys l).filterMap (groupFun l)

/-- GET /api/conversations via the aggregation pipeline (optionally behind
a `$match: { user }` stage): sort by (conversationId, timestamp) ascending,
group taking the last text/timestamp, then sort by updatedAt descending. -/
def listConversations (scope : Option Nat) (st : List Message) :
    List ConvSummary :=
  List.insertionSort updGe
    (groupLast (List.insertionSort cidTs (st.filter (scopeOk scope))))

/-- The Object.prototype property names: a lookup acc[k] on a plain object
is truthy for each of these even when k is not an own key, so the reduce's
!acc[conversationId] guard rejects such a conversationId outright (and an
assignment to "__proto__" creates no own property either). -/
def protoKeys : List String :=
  ["constructor", "hasOwnProperty", "isPrototypeOf", "propertyIsEnumerable",
   "toLocaleString", "toString", "valueOf", "__proto__",
   "__defineGetter__", "__defineSetter__", "__lookupGetter__",
   "__lookupSetter__"]

/-- The numeric value of a digit string. -/
def digitsToNat (l : List Char) : Nat :=
  l.foldl (fun acc ch => acc * 10 + (ch.toNat - Char.toNat '0')) 0

/-- Whether a string is an ECMAScript array-index key: the canonical
decimal form (no leading zero except "0" itself) of an integer below
2^32 - 1.  Own-property enumeration lists such keys first, in ascending
numeric order. -/
def isArrayIndex (s : String) : Bool :=
  !s.data.isEmpty && s.data.all Char.isDigit &&
    (s.data == ['0'] || !(s.data.head? == some '0')) &&
    decide (digitsToNat s.data < 2 ^ 32 - 1)

/-- Ascending numeric order on accumulator entries with array-index keys. -/
def keyNumLe (a b : String × ConvSummary) : Prop :=
  digitsToNat a.1.data ≤ digitsToNat b.1.data

instance : DecidableRel keyNumLe := fun a b =>
  inferInstanceAs (Decidable (digitsToNat a.1.data ≤ digitsToNat b.1.data))

instance : IsTotal (String × ConvSummary) keyNumLe :=
  ⟨fun a b => Nat.le_total (digitsToNat a.1.data) (digitsToNat b.1.data)⟩

instance : IsTrans (String × ConvSummary) keyNumLe :=
  ⟨fun _ _ _ h h' => Nat.le_trans h h'⟩

/-- One step of the reduce in router.get('/conversations'): the JS
accumulator object as an association list of own keys in creation order.
A chat is skipped when !acc[conversationId] is falsy — because the id is
already an own key, or because it names an Object.prototype property (a
truthy inherited value); otherwise its summary is added under its id. -/
def convAccum (acc : List (String × ConvSummary)) (chat : Message) :
    List (String × ConvSummary) :=
  if acc.any (fun kv => kv.1 == chat.conversationId) ||
      protoKeys.contains chat.conversationId then acc
  else acc ++ [(chat.conversationId, mkSummary chat)]

/-- Object.values over the accumulator: ECMAScript enumerates own
array-index keys in ascending numeric order first, then the remaining
string keys in creation order. -/
def objectValues (acc : List (String × ConvSummary)) : List ConvSummary :=
  (List.insertionSort keyNumLe (acc.filter (fun kv => isArrayIndex kv.1)) ++
    acc.filter (fun kv => !(isArrayIndex kv.1))).map (fun kv => kv.2)

/-- router.get('/conversations') of the strict authenticated variant:
fetch the user's chats sorted by timestamp descending, keep the first chat
seen per conversationId, emit Object.values of the accumulator object. -/
def listConversationsReduce (u : Nat) (st : List Message) :
    List ConvSummary :=
  let chats :=
    List.insertionSort tsGe (st.filter (fun m => m.owner == some u))
  objectValues (chats.foldl convAccum [])

/-- Recursive form of the reduce of router.get('/conversations'): keep the
first stream document per conversationId, in first-appearance order.
Proved below to agree with the foldl over the accumulator object. -/
def firstPerCid : List Message → List ConvSummary
  | [] => []
  | m :: ms =>
      mkSummary m ::
        firstPerCid
          (ms.filter (fun x => !(x.conversationId == m.conversationId)))
termination_by l => l.length
decreasing_by
  simp only [List.length_cons]
  exact Nat.lt_succ_of_le (List.length_filter_le _ _)

/-! ## The client edit-message flow -/

/-- A client-side message of the React component (interface Message). -/
structure CMessage where
  id : Nat
  text : String
  sender : String
  edited : Bool := false
  deriving DecidableEq, Repr

/-- A stored message as addressed by the extended single-message endpoints
(these carry a message id). -/
structure SMessage where
  id : Nat
  conversationId : String
  sender : String
  text : String
  timestamp : Nat
  deriving DecidableEq, Repr

/-- The local update of the editing branch of handleSendMessage: the edited
message gets the new text and edited = true. -/
def editClientMessages (eid : Nat) (t : String) (msgs : List CMessage) :
    List CMessage :=
  msgs.map (fun m =>
    if m.id == eid then { m with text := t, edited := true } else m)

/-- messages.find(msg => msg.sender === "ai" && msg.id > editingMessageId):
the stale AI answer to discard. -/
def findStaleAi (eid : Nat) (msgs : List CMessage) : Option CMessage :=
  msgs.find? (fun m => m.sender == "ai" && eid < m.id)

/-- The client state after the editing branch: text replaced and marked
edited, then the stale AI message (when found) filtered out. -/
def editFlowClient (eid : Nat) (t : String) (msgs : List CMessage) :
    List CMessage :=
  let updated := editClientMessages eid t msgs
  match findStaleAi eid msgs with
  | some ai => updated.filter (fun m => m.id != ai.id)
  | none => updated

/-- Modelled from the spec: `updateMessage(conversationId, messageId,
text)` — the PUT /api/chats handler the client calls is not among the
staged sources (only its caller is); the spec describes an in-place edit of
the addressed stored message. -/
def updateMessage (c : String) (mid : Nat) (t : String)
    (st : List SMessage) : List SMessage :=
  st.map (fun m =>
    if m.conversationId == c && m.id == mid then { m with text := t } else m)

/-- Modelled from the spec: `deleteMessage(messageId)` — the DELETE
/api/chats/:id handler the client calls is not among the staged sources;
the spec describes a point deletion by message id. -/
def deleteMessage (mid : Nat) (st : List SMessage) : List SMessage :=
  st.filter (fun m => m.id != mid)

/-- The store after the editing branch: the PUT updates the edited message
in place, then the stale AI message found in the client state (when any) is
deleted by id. -/
def editFlowServer (c : String) (eid : Nat) (t : String)
    (msgs : List CMessage) (st : List SMessage) : List SMessage :=
  let st1 := updateMessage c eid t st
  match findStaleAi eid msgs with
  | some ai => deleteMessage ai.id st1
  | none => st1

/-! ## Basic facts about the embedded operations -/

theorem listMessages_perm (scope : Option Nat) (c : String)
    (st : List Message) :
    (listMessages scope c st).Perm
      (st.filter (fun m => m.conversationId == c && scopeOk scope m)) :=
  List.perm_insertionSort tsLe _

theorem listMessages_sorted (scope : Option Nat) (c : String)
    (st : List Message) : (listMessages scope c st).Sorted tsLe :=
  List.sorted_insertionSort tsLe _

theorem runCreates_eq (owner : Option Nat) (c : String)
    (calls : List (String × String × Nat)) (st : List Message) :
    runCreates owner c calls st = st ++ calls.map (mkMsg owner c) := by
  induction calls generalizing st with
  | nil => simp [runCreates]
  | cons p ps ih =>
      simp only [runCreates, List.foldl_cons, List.map_cons] at *
      rw [ih]
      simp [createMessage, mkMsg, List.append_assoc]

theorem scopeOk_mkMsg (scope : Option Nat) (c : String)
    (p : String × String × Nat) : scopeOk scope (mkMsg scope c p) = true := by
  cases scope with
  | none => rfl
  | some u => simp [scopeOk, mkMsg]

theorem mem_distinctKeys {l : List Message} {c : String} :
    c ∈ distinctKeys l ↔ ∃ m ∈ l, m.conversationId = c := by
  induction l with
  | nil => simp [distinctKeys]
  | cons m ms ih =>
      simp only [distinctKeys, List.mem_cons, List.mem_filter, ih]
      constructor
      · rintro (rfl | ⟨⟨m', hm', rfl⟩, _⟩)
        · exact ⟨m, Or.inl rfl, rfl⟩
        · exact ⟨m', Or.inr hm', rfl⟩
      · rintro ⟨m', hm', rfl⟩
        rcases hm' with rfl | hm''
        · exact Or.inl rfl
        · by_cases hc : m'.conversationId = m.conversationId
          · exact Or.inl hc
          · exact Or.inr ⟨⟨m', hm'', rfl⟩, by simpa using hc⟩

theorem distinctKeys_nodup (l : List Message) : (distinctKeys l).Nodup := by
  induction l with
  | nil => simp [distinctKeys]
  | cons m ms ih =>
      simp only [distinctKeys]
      refine List.Nodup.cons ?_ (List.Nodup.filter _ ih)
      intro hmem
      have := (List.mem_filter.mp hmem).2
      simp at this

theorem pairwise_getLast {α : Type} {r : α → α → Prop} :
    ∀ {l : List α}, l.Pairwise r → ∀ {a : α}, l.getLast? = some a →
      ∀ x ∈ l, x = a ∨ r x a := by
  intro l
  induction l with
  | nil => intro _ a ha; simp at ha
  | cons x xs ih =>
      intro hp a ha y hy
      cases xs with
      | nil =>
          simp only [List.getLast?_singleton, Option.some.injEq] at ha
          rcases List.mem_singleton.mp hy with rfl
          exact Or.inl ha
      | cons z zs =>
          rw [List.getLast?_cons_cons] at ha
          rcases List.mem_cons.mp hy with rfl | hy'
          · refine Or.inr ?_
            have hamem : a ∈ z :: zs := by
              obtain ⟨ys, hys⟩ := List.getLast?_eq_some_iff.mp ha
              rw [hys]
              exact List.mem_append_right _ (List.mem_singleton_self a)
            exact (List.pairwise_cons.mp hp).1 a hamem
          · exact ih (List.pairwise_cons.mp hp).2 ha y hy'

theorem group_pairwise_tsLe {l : List Message} (hs : l.Pairwise cidTs)
    (c : String) :
    (l.filter (fun m => m.conversationId == c)).Pairwise tsLe := by
  have h1 : (l.filter (fun m => m.conversationId == c)).Pairwise cidTs :=
    hs.filter _
  refine h1.imp_of_mem ?_
  intro a b ha hb hab
  have hac : a.conversationId = c := by simpa using (List.mem_filter.mp ha).2
  have hbc : b.conversationId = c := by simpa using (List.mem_filter.mp hb).2
  rcases hab with h | ⟨_, h⟩
  · rw [hac, hbc] at h
    exact absurd h (lt_irrefl _)
  · exact h

theorem groupFun_isSome {l : List Message} {c : String}
    (h : ∃ m ∈ l, m.conversationId = c) :
    ∃ s : ConvSummary, groupFun l c = some s := by
  obtain ⟨m, hm, hmc⟩ := h
  have hne : l.filter (fun m2 => m2.conversationId == c) ≠ [] := by
    intro hnil
    have := List.filter_eq_nil_iff.mp hnil m hm
    simp [hmc] at this
  obtain ⟨mm, hmm⟩ :=
    Option.isSome_iff_exists.mp (List.getLast?_isSome.mpr hne)
  refine ⟨{ conversationId := c, lastMessage := mm.text
            updatedAt := mm.timestamp }, ?_⟩
  simp [groupFun, hmm]

theorem groupLast_cids (l : List Message) :
    (groupLast l).map ConvSummary.conversationId = distinctKeys l := by
  have main : ∀ (keys : List String),
      (∀ c ∈ keys, ∃ m ∈ l, m.conversationId = c) →
      ((keys.filterMap (groupFun l)).map ConvSummary.conversationId) = keys := by
    intro keys
    induction keys with
    | nil => simp
    | cons c ks ih =>
        intro h
        obtain ⟨s, hs⟩ := groupFun_isSome (h c (List.mem_cons_self _ _))
        have hscid : s.conversationId = c := by
          simp only [groupFun] at hs
          obtain ⟨m, -, hm2⟩ := Option.map_eq_some'.mp hs
          rw [← hm2]
        rw [List.filterMap_cons, hs, List.map_cons, hscid,
          ih (fun c' hc' => h c' (List.mem_cons_of_mem _ hc'))]
  exact main (distinctKeys l) (fun c hc => mem_distinctKeys.mp hc)

theorem mem_groupLast {l : List Message} {s : ConvSummary}
    (hs : s ∈ groupLast l) :
    ∃ m, (l.filter
        (fun m2 => m2.conversationId == s.conversationId)).getLast? = some m ∧
      s.lastMessage = m.text ∧ s.updatedAt = m.timestamp := by
  obtain ⟨c, -, hc⟩ := List.mem_filterMap.mp hs
  simp only [groupFun] at hc
  obtain ⟨m, hm, hm2⟩ := Option.map_eq_some'.mp hc
  have hscid : s.conversationId = c := by rw [← hm2]
  subst hscid
  exact ⟨m, hm, by rw [← hm2], by rw [← hm2]⟩

theorem groupLast_max {l : List Message} (hp : l.Pairwise cidTs)
    {s : ConvSummary} (hs : s ∈ groupLast l) :
    ∃ m ∈ l, m.conversationId = s.conversationId ∧ m.text = s.lastMessage ∧
      m.timestamp = s.updatedAt ∧
      ∀ m2 ∈ l, m2.conversationId = s.conversationId →
        m2.timestamp ≤ m.timestamp := by
  obtain ⟨m, hlast, htext, hts⟩ := mem_groupLast hs
  have hmem : m ∈ l.filter
      (fun m2 => m2.conversationId == s.conversationId) := by
    obtain ⟨ys, hys⟩ := List.getLast?_eq_some_iff.mp hlast
    rw [hys]
    exact List.mem_append_right _ (List.mem_singleton_self m)
  have hcid : m.conversationId = s.conversationId := by
    simpa using (List.mem_filter.mp hmem).2
  have hmax :=
    pairwise_getLast (group_pairwise_tsLe hp s.conversationId) hlast
  refine ⟨m, (List.mem_filter.mp hmem).1, hcid, htext.symm, hts.symm, ?_⟩
  intro m2 hm2 hcid2
  have hin : m2 ∈ l.filter
      (fun m3 => m3.conversationId == s.conversationId) :=
    List.mem_filter.mpr ⟨hm2, by simp [hcid2]⟩
  rcases hmax m2 hin with rfl | hr
  · exact le_refl _
  · exact hr

/-- Full characterisation of the aggregation-pipeline conversation view,
shared by the C1 and C3 results. -/
theorem listConversations_char (scope : Option Nat) (st : List Message) :
    ((listConversations scope st).map ConvSummary.conversationId).Nodup ∧
    (∀ c, c ∈ (listConversations scope st).map ConvSummary.conversationId ↔
      ∃ m ∈ st, scopeOk scope m = true ∧ m.conversationId = c) ∧
    (∀ s ∈ listConversations scope st, ∃ m ∈ st, scopeOk scope m = true ∧
      m.conversationId = s.conversationId ∧ m.text = s.lastMessage ∧
      m.timestamp = s.updatedAt ∧
      ∀ m2 ∈ st, scopeOk scope m2 = true →
        m2.conversationId = s.conversationId →
        m2.timestamp ≤ m.timestamp) ∧
    (listConversations scope st).Sorted updGe := by
  set fl := st.filter (scopeOk scope) with hfl
  set ss := List.insertionSort cidTs fl with hss
  have hperm : ss.Perm fl := List.perm_insertionSort cidTs fl
  have hpair : ss.Pairwise cidTs := List.sorted_insertionSort cidTs fl
  have hout : (listConversations scope st).Perm (groupLast ss) :=
    List.perm_insertionSort updGe (groupLast ss)
  have hmem_fl : ∀ m : Message,
      m ∈ fl ↔ m ∈ st ∧ scopeOk scope m = true := fun m => List.mem_filter
  have hcids : ∀ c, c ∈ (listConversations scope st).map
      ConvSummary.conversationId ↔
      ∃ m ∈ st, scopeOk scope m = true ∧ m.conversationId = c := by
    intro c
    rw [(hout.map ConvSummary.conversationId).mem_iff, groupLast_cids,
      mem_distinctKeys]
    constructor
    · rintro ⟨m, hm, rfl⟩
      have := (hmem_fl m).mp (hperm.mem_iff.mp hm)
      exact ⟨m, this.1, this.2, rfl⟩
    · rintro ⟨m, hm, hsc, rfl⟩
      exact ⟨m, hperm.mem_iff.mpr ((hmem_fl m).mpr ⟨hm, hsc⟩), rfl⟩
  refine ⟨?_, hcids, ?_, List.sorted_insertionSort updGe _⟩
  · rw [(hout.map ConvSummary.conversationId).nodup_iff, groupLast_cids]
    exact distinctKeys_nodup ss
  · intro s hsmem
    have hsg : s ∈ groupLast ss := hout.mem_iff.mp hsmem
    obtain ⟨m, hm, hcid, htext, hts, hmax⟩ := groupLast_max hpair hsg
    have hmst := (hmem_fl m).mp (hperm.mem_iff.mp hm)
    refine ⟨m, hmst.1, hmst.2, hcid, htext, hts, ?_⟩
    intro m2 hm2 hsc2 hcid2
    exact hmax m2 (hperm.mem_iff.mpr ((hmem_fl m2).mpr ⟨hm2, hsc2⟩)) hcid2

/-- C1: listConversations (the aggregation pipeline, under any user scope)
lists each conversationId having a matching message exactly once, each row
carrying the text and timestamp of a message of maximal timestamp in its
group, rows sorted descending by that timestamp. -/
theorem listConversations_spec (scope : Option Nat) (st : List Message) :
    (∀ c, (∃ m ∈ st, scopeOk scope m = true ∧ m.conversationId = c) →
      ((listConversations scope st).map ConvSummary.conversationId).count c
        = 1) ∧
    (∀ s ∈ listConversations scope st, ∃ m ∈ st, scopeOk scope m = true ∧
      m.conversationId = s.conversationId ∧ m.text = s.lastMessage ∧
      m.timestamp = s.updatedAt ∧
      ∀ m2 ∈ st, scopeOk scope m2 = true →
        m2.conversationId = s.conversationId →
        m2.timestamp ≤ m.timestamp) ∧
    (listConversations scope st).Sorted updGe := by
  obtain ⟨hnodup, hmem, hsumm, hsort⟩ := listConversations_char scope st
  refine ⟨?_, hsumm, hsort⟩
  intro c hc
  exact List.count_eq_one_of_mem hnodup ((hmem c).mpr hc)

/-- C2: for every conversationId c and every sequence of createMessage
calls for c (in any scope), a subsequent listMessages for c returns exactly
the created messages — a permutation of them — sorted ascending by
timestamp, provided the store held no message matching c in that scope
beforehand. -/
theorem createThenList_returns_all_sorted (scope : Option Nat) (c : String)
    (calls : List (String × String × Nat)) (st : List Message)
    (h : ∀ m ∈ st, ¬(m.conversationId = c ∧ scopeOk scope m = true)) :
    (listMessages scope c (runCreates scope c calls st)).Perm
      (calls.map (mkMsg scope c)) ∧
    (listMessages scope c (runCreates scope c calls st)).Sorted tsLe := by
  refine ⟨?_, listMessages_sorted _ _ _⟩
  have hfil : (runCreates scope c calls st).filter
      (fun m => m.conversationId == c && scopeOk scope m)
      = calls.map (mkMsg scope c) := by
    rw [runCreates_eq, List.filter_append]
    have h1 : st.filter (fun m => m.conversationId == c && scopeOk scope m)
        = [] := by
      rw [List.filter_eq_nil_iff]
      intro a ha
      simp only [Bool.and_eq_true, beq_iff_eq, not_and]
      intro h1 h2
      exact h a ha ⟨h1, h2⟩
    have h2 : (calls.map (mkMsg scope c)).filter
        (fun m => m.conversationId == c && scopeOk scope m)
        = calls.map (mkMsg scope c) := by
      rw [List.filter_eq_self]
      intro m hm
      obtain ⟨p, _, rfl⟩ := List.mem_map.mp hm
      simp only [Bool.and_eq_true, beq_iff_eq]
      exact ⟨rfl, scopeOk_mkMsg scope c p⟩
    rw [h1, h2, List.nil_append]
  have := listMessages_perm scope c (runCreates scope c calls st)
  rw [hfil] at this
  exact this

/-- Witness for C2 at a concrete input: scope user 1, two creates into
conversation "c1" over a store holding one other conversation and one
foreign-owned message. -/
theorem createThenList_returns_all_sorted_witness :
    (∀ m ∈ [(⟨some 1, "zz", "user", "x", 1⟩ : Message),
            ⟨some 2, "c1", "user", "y", 2⟩],
        ¬(m.conversationId = "c1" ∧ scopeOk (some 1) m = true)) ∧
    ((listMessages (some 1) "c1"
        (runCreates (some 1) "c1" [("user", "hi", 5), ("ai", "yo", 3)]
          [⟨some 1, "zz", "user", "x", 1⟩, ⟨some 2, "c1", "user", "y", 2⟩])).Perm
      ([("user", "hi", 5), ("ai", "yo", 3)].map (mkMsg (some 1) "c1")) ∧
     (listMessages (some 1) "c1"
        (runCreates (some 1) "c1" [("user", "hi", 5), ("ai", "yo", 3)]
          [⟨some 1, "zz", "user", "x", 1⟩,
           ⟨some 2, "c1", "user", "y", 2⟩])).Sorted tsLe) :=
  ⟨by decide,
   createThenList_returns_all_sorted (some 1) "c1"
     [("user", "hi", 5), ("ai", "yo", 3)]
     [⟨some 1, "zz", "user", "x", 1⟩, ⟨some 2, "c1", "user", "y", 2⟩]
     (by decide)⟩

/-- C3: after deleteConversation for c (in any scope) no matching message
remains; listMessages for c returns the empty sequence and c no longer
appears in listConversations. -/
theorem deleteConversation_spec (scope : Option Nat) (c : String)
    (st : List Message) :
    (∀ m ∈ deleteConversation scope c st,
      ¬(m.conversationId = c ∧ scopeOk scope m = true)) ∧
    listMessages scope c (deleteConversation scope c st) = [] ∧
    c ∉ (listConversations scope (deleteConversation scope c st)).map
      ConvSummary.conversationId := by
  have hnone : ∀ m ∈ deleteConversation scope c st,
      ¬(m.conversationId = c ∧ scopeOk scope m = true) := by
    intro m hm
    rintro ⟨hcid, hsc⟩
    have h2 := (List.mem_filter.mp hm).2
    simp [hcid, hsc] at h2
  refine ⟨hnone, ?_, ?_⟩
  · have hfil : (deleteConversation scope c st).filter
        (fun m => m.conversationId == c && scopeOk scope m) = [] := by
      rw [List.filter_eq_nil_iff]
      intro a ha
      simp only [Bool.and_eq_true, beq_iff_eq, not_and]
      intro h1 h2
      exact hnone a ha ⟨h1, h2⟩
    simp [listMessages, hfil]
  · intro hc
    obtain ⟨-, hmem, -, -⟩ :=
      listConversations_char scope (deleteConversation scope c st)
    obtain ⟨m, hm, hsc, hcid⟩ := (hmem c).mp hc
    exact hnone m hm ⟨hcid, hsc⟩

/-- C5 counterexample: the strict authenticated router variant of GET
/api/chats performs no conversationId check; with the parameter absent it
answers 200 — not 400 — and returns the user's messages. -/
theorem getChats_router_answers_200 :
    getChatsRouter 1 none [⟨some 1, "c1", "user", "hi", 5⟩]
        = (200, [⟨some 1, "c1", "user", "hi", 5⟩]) ∧
    (200 : Nat) ≠ 400 := by
  constructor
  · decide
  · decide

/-- C5 (amended): the two app-server variants of GET /api/chats answer 400
with no messages when the conversationId query value is absent (or empty,
both falsy); the strict router variant has no such check and answers 200. -/
theorem getChats_missing_conversationId (scope : Option Nat) (u : Nat)
    (st : List Message) :
    getChats scope none st = (400, []) ∧
    getChats scope (some "") st = (400, []) ∧
    (getChatsRouter u none st).1 = 200 :=
  ⟨rfl, rfl, rfl⟩

/-- C6 counterexample: a POST /api/chats body with no text under the strict
schema is rejected with a ValidationError, no row is inserted, and the
route's catch-all answers 500 — not 400. -/
theorem postChatStrict_missing_field_500 :
    saveStrict 1 ⟨some "c1", some "user", none, none⟩ 7 []
        = .error "ValidationError" ∧
    postChatStrict 1 ⟨some "c1", some "user", none, none⟩ 7 [] = (500, []) ∧
    (500 : Nat) ≠ 400 :=
  ⟨rfl, rfl, by decide⟩

/-- C6 (amended): in the strict schema variant a createMessage request
missing conversationId, sender or text fails with a ValidationError and
inserts no row, but the service responds 500 (the handler's catch-all), not
400. -/
theorem postChatStrict_validation (u : Nat) (body : ChatBody) (now : Nat)
    (st : List Message)
    (h : body.conversationId = none ∨ body.sender = none ∨
      body.text = none) :
    saveStrict u body now st = .error "ValidationError" ∧
    postChatStrict u body now st = (500, st) := by
  have hsave : saveStrict u body now st = .error "ValidationError" := by
    rcases body with ⟨bc, bs, bt, bts⟩
    rcases h with h | h | h <;> subst h
    · cases bs <;> cases bt <;> rfl
    · cases bc <;> cases bt <;> rfl
    · cases bc <;> cases bs <;> rfl
  refine ⟨hsave, ?_⟩
  simp [postChatStrict, hsave]

/-- Witness for C6 at a concrete input: a body with no sender. -/
theorem postChatStrict_validation_witness :
    ((⟨some "c1", none, some "hello", some 3⟩ : ChatBody).conversationId
        = none ∨
      (⟨some "c1", none, some "hello", some 3⟩ : ChatBody).sender = none ∨
      (⟨some "c1", none, some "hello", some 3⟩ : ChatBody).text = none) ∧
    (saveStrict 9 ⟨some "c1", none, some "hello", some 3⟩ 7
        [⟨some 9, "c1", "user", "old", 1⟩] = .error "ValidationError" ∧
      postChatStrict 9 ⟨some "c1", none, some "hello", some 3⟩ 7
        [⟨some 9, "c1", "user", "old", 1⟩]
        = (500, [⟨some 9, "c1", "user", "old", 1⟩])) :=
  ⟨Or.inr (Or.inl rfl),
   postChatStrict_validation 9 ⟨some "c1", none, some "hello", some 3⟩ 7
     [⟨some 9, "c1", "user", "old", 1⟩] (Or.inr (Or.inl rfl))⟩

/-- C7 counterexample: the open POST /api/chats handler stores a
client-supplied timestamp verbatim — two requests identical but for the
body timestamp store different timestamps, neither being the server clock
value 10. -/
theorem newChatLoose_timestamp_from_body :
    (newChatLoose ⟨some "c1", some "user", some "hi", some 5⟩ 10).timestamp
        = 5 ∧
    (newChatLoose ⟨some "c1", some "user", some "hi", some 6⟩ 10).timestamp
        = 6 ∧
    (5 : Nat) ≠ 10 :=
  ⟨rfl, rfl, by decide⟩

/-- C7 (amended): the stored timestamp is the schema default — the server
clock at insertion — exactly when the body supplies no timestamp; a body
timestamp is stored as-is.  Only the strict router variant, which never
reads a body timestamp, always assigns the server clock. -/
theorem chat_timestamp_assignment (body : ChatBody) (now : Nat) (u : Nat)
    (st : List Message) :
    (body.timestamp = none → (newChatLoose body now).timestamp = now) ∧
    (∀ t, body.timestamp = some t →
      (newChatLoose body now).timestamp = t) ∧
    (∀ st2 chat, saveStrict u body now st = .ok (st2, chat) →
      chat.timestamp = now) := by
  refine ⟨?_, ?_, ?_⟩
  · intro h
    simp [newChatLoose, h]
  · intro t h
    simp [newChatLoose, h]
  · intro st2 chat h
    rcases body with ⟨bc, bs, bt, bts⟩
    rcases bc with - | c2
    · exact Except.noConfusion h
    rcases bs with - | s2
    · exact Except.noConfusion h
    rcases bt with - | t2
    · exact Except.noConfusion h
    unfold saveStrict at h
    have h' : (if s2 = "user" ∨ s2 = "ai" then
        (Except.ok
          (st ++ [({ owner := some u, conversationId := c2, sender := s2,
                     text := t2, timestamp := now } : Message)],
            ({ owner := some u, conversationId := c2, sender := s2,
               text := t2, timestamp := now } : Message)) :
          Except String (List Message × Message))
      else Except.error "ValidationError") = Except.ok (st2, chat) := h
    by_cases hcond : s2 = "user" ∨ s2 = "ai"
    · rw [if_pos hcond] at h'
      injection h' with h2
      have h3 := congrArg Prod.snd h2
      simp only at h3
      rw [← h3]
    · rw [if_neg hcond] at h'
      exact Except.noConfusion h'

/-- C10: the authenticated deleteConversation removes only the calling
user's messages: every message of another owner — same conversationId
included — survives, the surviving store is a sublist of the old one with
nothing added, the store restricted to other owners is untouched, and the
user collection is untouched. -/
theorem deleteConversationAuth_frame (u : Nat) (c : String) (db : DB) :
    (deleteConversationAuth u c db).users = db.users ∧
    (deleteConversationAuth u c db).chats.Sublist db.chats ∧
    (∀ m ∈ db.chats, m.owner ≠ some u →
      m ∈ (deleteConversationAuth u c db).chats) ∧
    (∀ m ∈ db.chats, m.conversationId ≠ c →
      m ∈ (deleteConversationAuth u c db).chats) ∧
    (∀ m ∈ (deleteConversationAuth u c db).chats, m ∈ db.chats) ∧
    (deleteConversationAuth u c db).chats.filter
        (fun m => !(m.owner == some u)) =
      db.chats.filter (fun m => !(m.owner == some u)) := by
  refine ⟨rfl, List.filter_sublist _, ?_, ?_, ?_, ?_⟩
  · intro m hm how
    refine List.mem_filter.mpr ⟨hm, ?_⟩
    simp only [Bool.not_eq_eq_eq_not, Bool.not_true, Bool.and_eq_false_iff]
    right
    simpa using how
  · intro m hm hcid
    refine List.mem_filter.mpr ⟨hm, ?_⟩
    simp only [Bool.not_eq_eq_eq_not, Bool.not_true, Bool.and_eq_false_iff]
    left
    simpa using hcid
  · intro m hm
    exact (List.mem_filter.mp hm).1
  · show (db.chats.filter _).filter _ = _
    rw [List.filter_filter]
    refine List.filter_congr ?_
    intro x _
    cases hx : x.owner == some u <;> simp [hx]

theorem foldl_convAccum_mem :
    ∀ (chats : List Message) (acc : List (String × ConvSummary)),
      ∀ kv ∈ chats.foldl convAccum acc,
        kv ∈ acc ∨ ∃ m ∈ chats, kv = (m.conversationId, mkSummary m) := by
  intro chats
  induction chats with
  | nil =>
      intro acc kv hkv
      exact Or.inl hkv
  | cons ch chs ih =>
      intro acc kv hkv
      rw [List.foldl_cons] at hkv
      rcases ih (convAccum acc ch) kv hkv with hin | ⟨m, hm, rfl⟩
      · unfold convAccum at hin
        by_cases hk : (acc.any (fun kv => kv.1 == ch.conversationId) ||
            protoKeys.contains ch.conversationId) = true
        · rw [if_pos hk] at hin
          exact Or.inl hin
        · rw [if_neg hk] at hin
          rcases List.mem_append.mp hin with h1 | h2
          · exact Or.inl h1
          · refine Or.inr ⟨ch, List.mem_cons_self _ _, ?_⟩
            simpa using h2
      · exact Or.inr ⟨m, List.mem_cons_of_mem _ hm, rfl⟩

theorem mem_objectValues {acc : List (String × ConvSummary)}
    {s : ConvSummary} (hs : s ∈ objectValues acc) :
    ∃ kv ∈ acc, s = kv.2 := by
  unfold objectValues at hs
  obtain ⟨kv, hkv, rfl⟩ := List.mem_map.mp hs
  rcases List.mem_append.mp hkv with h1 | h2
  · have h1' := (List.perm_insertionSort keyNumLe _).mem_iff.mp h1
    exact ⟨kv, (List.mem_filter.mp h1').1, rfl⟩
  · exact ⟨kv, (List.mem_filter.mp h2).1, rfl⟩

theorem listMessages_owner (a : Nat) (c : String) (st : List Message) :
    ∀ m ∈ listMessages (some a) c st, m.owner = some a := by
  intro m hm
  have h1 :=
    (List.mem_filter.mp ((listMessages_perm (some a) c st).mem_iff.mp hm)).2
  have h2 := (Bool.and_eq_true _ _ |>.mp h1).2
  simpa [scopeOk] using h2

/-- C4: authenticated listing returns only the requesting user's data:
every message listed for user a is owned by a, every conversation summary
(aggregation pipeline or in-process reduce) derives from a message owned by
a, and a message owned by a different user b never appears in a's
listMessages result. -/
theorem authenticated_listing_owner_only (a b : Nat) (c : String)
    (st : List Message) (m : Message) :
    (∀ m2 ∈ listMessages (some a) c st, m2.owner = some a) ∧
    (∀ s ∈ listConversations (some a) st, ∃ m2 ∈ st, m2.owner = some a ∧
      m2.conversationId = s.conversationId ∧ m2.text = s.lastMessage ∧
      m2.timestamp = s.updatedAt) ∧
    (∀ s ∈ listConversationsReduce a st, ∃ m2 ∈ st, m2.owner = some a ∧
      s = mkSummary m2) ∧
    (m.owner = some b → a ≠ b → m ∉ listMessages (some a) c st) := by
  refine ⟨listMessages_owner a c st, ?_, ?_, ?_⟩
  · intro s hs
    obtain ⟨-, -, hsum, -⟩ := listConversations_char (some a) st
    obtain ⟨m2, hm2, hsc, hcid, htext, hts, -⟩ := hsum s hs
    have how : m2.owner = some a := by simpa [scopeOk] using hsc
    exact ⟨m2, hm2, how, hcid, htext, hts⟩
  · intro s hs
    obtain ⟨kv, hkv, rfl⟩ := mem_objectValues hs
    rcases foldl_convAccum_mem
        (List.insertionSort tsGe (st.filter (fun m2 => m2.owner == some a)))
        [] kv hkv with h0 | ⟨m2, hm2, rfl⟩
    · simp at h0
    · have hm2' := (List.perm_insertionSort tsGe _).mem_iff.mp hm2
      have hsp := List.mem_filter.mp hm2'
      exact ⟨m2, hsp.1, by simpa using hsp.2, rfl⟩
  · intro how hab hmem
    have h1 := listMessages_owner a c st m hmem
    rw [how] at h1
    exact hab (Option.some.inj h1).symm

theorem find?_min_id {p : CMessage → Bool} :
    ∀ {msgs : List CMessage}, msgs.Pairwise (fun x y => x.id < y.id) →
      ∀ {a : CMessage}, msgs.find? p = some a →
      ∀ m ∈ msgs, p m = true → a.id ≤ m.id := by
  intro msgs
  induction msgs with
  | nil =>
      intro _ a ha
      simp at ha
  | cons x xs ih =>
      intro hs a ha m hm hpm
      by_cases hx : p x = true
      · rw [List.find?_cons_of_pos _ hx] at ha
        injection ha with ha2
        rcases List.mem_cons.mp hm with rfl | hm'
        · exact le_of_eq (by rw [← ha2])
        · have hlt := (List.pairwise_cons.mp hs).1 m hm'
          rw [← ha2]
          exact le_of_lt hlt
      · rw [List.find?_cons_of_neg _ hx] at ha
        rcases List.mem_cons.mp hm with rfl | hm'
        · exact absurd hpm hx
        · exact ih (List.pairwise_cons.mp hs).2 ha m hm' hpm

/-- C8: in a client conversation state sorted by message id in which the
edited user message eid is followed by an AI message, the edit flow gives
the edited message the new text and the edited mark and keeps it in the
client state, and the first AI message with id greater than eid is deleted
from both the client state and the store (the latter through the
spec-modelled update/delete endpoints). -/
theorem editFlow_spec (c : String) (eid : Nat) (t : String)
    (msgs : List CMessage) (st : List SMessage)
    (hs : msgs.Pairwise (fun x y => x.id < y.id))
    (hai : ∃ m ∈ msgs, m.sender = "ai" ∧ eid < m.id) :
    ∃ a, findStaleAi eid msgs = some a ∧ a ∈ msgs ∧ a.sender = "ai" ∧
      eid < a.id ∧
      (∀ m ∈ msgs, m.sender = "ai" → eid < m.id → a.id ≤ m.id) ∧
      (∀ m ∈ editFlowClient eid t msgs, m.id = eid →
        m.text = t ∧ m.edited = true) ∧
      (∀ m ∈ msgs, m.id = eid →
        ({ m with text := t, edited := true } : CMessage) ∈
          editFlowClient eid t msgs) ∧
      (∀ m ∈ editFlowClient eid t msgs, m.id ≠ a.id) ∧
      (∀ m ∈ editFlowServer c eid t msgs st, m.id = eid →
        m.conversationId = c → m.text = t) ∧
      (∀ m ∈ editFlowServer c eid t msgs st, m.id ≠ a.id) := by
  have hsome : (findStaleAi eid msgs).isSome := by
    unfold findStaleAi
    rw [List.find?_isSome]
    obtain ⟨m, hm, h1, h2⟩ := hai
    exact ⟨m, hm, by simp [h1, h2]⟩
  obtain ⟨a, ha0⟩ := Option.isSome_iff_exists.mp hsome
  have ha : msgs.find?
      (fun m => m.sender == "ai" && decide (eid < m.id)) = some a := ha0
  have hpa0 := List.find?_some ha
  have hmem := List.mem_of_find?_eq_some ha
  simp only [Bool.and_eq_true, beq_iff_eq, decide_eq_true_eq] at hpa0
  have hmin : ∀ m ∈ msgs, m.sender = "ai" → eid < m.id → a.id ≤ m.id := by
    intro m hm h1 h2
    exact find?_min_id hs ha m hm (by simp [h1, h2])
  have hcf : editFlowClient eid t msgs =
      (editClientMessages eid t msgs).filter (fun m => m.id != a.id) := by
    unfold editFlowClient
    rw [ha0]
  have hsf : editFlowServer c eid t msgs st =
      deleteMessage a.id (updateMessage c eid t st) := by
    unfold editFlowServer
    rw [ha0]
  have hc1 : ∀ m ∈ editFlowClient eid t msgs, m.id = eid →
      m.text = t ∧ m.edited = true := by
    intro m hm hid
    rw [hcf] at hm
    have hm2 := (List.mem_filter.mp hm).1
    simp only [editClientMessages] at hm2
    obtain ⟨m0, hm0, heq⟩ := List.mem_map.mp hm2
    by_cases h0 : (m0.id == eid) = true
    · rw [if_pos h0] at heq
      rw [← heq]
      exact ⟨rfl, rfl⟩
    · rw [if_neg h0] at heq
      rw [← heq] at hid
      exact absurd (by simp [hid]) h0
  have hc2 : ∀ m ∈ msgs, m.id = eid →
      ({ m with text := t, edited := true } : CMessage) ∈
        editFlowClient eid t msgs := by
    intro m hm hid
    rw [hcf]
    refine List.mem_filter.mpr ⟨?_, ?_⟩
    · simp only [editClientMessages]
      refine List.mem_map.mpr ⟨m, hm, ?_⟩
      rw [if_pos (by simp [hid])]
    · simp only [bne_iff_ne, decide_eq_true_eq]
      show m.id ≠ a.id
      rw [hid]
      exact Nat.ne_of_lt hpa0.2
  have hc3 : ∀ m ∈ editFlowClient eid t msgs, m.id ≠ a.id := by
    intro m hm
    rw [hcf] at hm
    have h2 := (List.mem_filter.mp hm).2
    simpa [bne_iff_ne] using h2
  have hs1 : ∀ m ∈ editFlowServer c eid t msgs st, m.id = eid →
      m.conversationId = c → m.text = t := by
    intro m hm hid hcid
    rw [hsf] at hm
    simp only [deleteMessage] at hm
    have hm2 := (List.mem_filter.mp hm).1
    simp only [updateMessage] at hm2
    obtain ⟨m0, hm0, heq⟩ := List.mem_map.mp hm2
    by_cases h0 : (m0.conversationId == c && m0.id == eid) = true
    · rw [if_pos h0] at heq
      rw [← heq]
    · rw [if_neg h0] at heq
      rw [← heq] at hid hcid
      exact absurd (by simp [hid, hcid]) h0
  have hs2 : ∀ m ∈ editFlowServer c eid t msgs st, m.id ≠ a.id := by
    intro m hm
    rw [hsf] at hm
    simp only [deleteMessage] at hm
    have h2 := (List.mem_filter.mp hm).2
    simpa [bne_iff_ne] using h2
  exact ⟨a, ha0, hmem, hpa0.1, hpa0.2, hmin, hc1, hc2, hc3, hs1, hs2⟩

/-- Witness for C8 at a concrete input: a two-message conversation where
message 1 ("q", user) is edited to "q2" and message 2 ("ans", ai) is the
stale answer. -/
theorem editFlow_spec_witness :
    ([(⟨1, "q", "user", false⟩ : CMessage), ⟨2, "ans", "ai", false⟩].Pairwise
        (fun x y => x.id < y.id)) ∧
    (∃ m ∈ [(⟨1, "q", "user", false⟩ : CMessage), ⟨2, "ans", "ai", false⟩],
      m.sender = "ai" ∧ 1 < m.id) ∧
    (∃ a, findStaleAi 1
        [(⟨1, "q", "user", false⟩ : CMessage), ⟨2, "ans", "ai", false⟩]
        = some a ∧
      a ∈ [(⟨1, "q", "user", false⟩ : CMessage), ⟨2, "ans", "ai", false⟩] ∧
      a.sender = "ai" ∧ 1 < a.id ∧
      (∀ m ∈ [(⟨1, "q", "user", false⟩ : CMessage), ⟨2, "ans", "ai", false⟩],
        m.sender = "ai" → 1 < m.id → a.id ≤ m.id) ∧
      (∀ m ∈ editFlowClient 1 "q2"
          [(⟨1, "q", "user", false⟩ : CMessage), ⟨2, "ans", "ai", false⟩],
        m.id = 1 → m.text = "q2" ∧ m.edited = true) ∧
      (∀ m ∈ [(⟨1, "q", "user", false⟩ : CMessage), ⟨2, "ans", "ai", false⟩],
        m.id = 1 →
        ({ m with text := "q2", edited := true } : CMessage) ∈
          editFlowClient 1 "q2"
            [(⟨1, "q", "user", false⟩ : CMessage), ⟨2, "ans", "ai", false⟩]) ∧
      (∀ m ∈ editFlowClient 1 "q2"
          [(⟨1, "q", "user", false⟩ : CMessage), ⟨2, "ans", "ai", false⟩],
        m.id ≠ a.id) ∧
      (∀ m ∈ editFlowServer "c1" 1 "q2"
          [(⟨1, "q", "user", false⟩ : CMessage), ⟨2, "ans", "ai", false⟩]
          [(⟨1, "c1", "user", "q", 1⟩ : SMessage), ⟨2, "c1", "ai", "ans", 2⟩],
        m.id = 1 → m.conversationId = "c1" → m.text = "q2") ∧
      (∀ m ∈ editFlowServer "c1" 1 "q2"
          [(⟨1, "q", "user", false⟩ : CMessage), ⟨2, "ans", "ai", false⟩]
          [(⟨1, "c1", "user", "q", 1⟩ : SMessage), ⟨2, "c1", "ai", "ans", 2⟩],
        m.id ≠ a.id)) :=
  ⟨by decide, by decide,
   editFlow_spec "c1" 1 "q2"
     [⟨1, "q", "user", false⟩, ⟨2, "ans", "ai", false⟩]
     [⟨1, "c1", "user", "q", 1⟩, ⟨2, "c1", "ai", "ans", 2⟩]
     (by decide) (by decide)⟩

theorem foldl_convAccum_eq_firstPerCid :
    ∀ (chats : List Message) (acc : List (String × ConvSummary)),
      (∀ m ∈ chats, protoKeys.contains m.conversationId = false) →
      ((chats.foldl convAccum acc).map (fun kv => kv.2)) =
        acc.map (fun kv => kv.2) ++
          firstPerCid (chats.filter
            (fun x => !(acc.any (fun kv => kv.1 == x.conversationId)))) := by
  intro chats
  induction chats with
  | nil =>
      intro acc _
      simp [firstPerCid]
  | cons ch chs ih =>
      intro acc hpr
      have hpch : protoKeys.contains ch.conversationId = false :=
        hpr ch (List.mem_cons_self _ _)
      have hpr' : ∀ m ∈ chs, protoKeys.contains m.conversationId = false :=
        fun m hm => hpr m (List.mem_cons_of_mem _ hm)
      rw [List.foldl_cons]
      by_cases hin : (acc.any (fun kv => kv.1 == ch.conversationId)) = true
      · have hacc : convAccum acc ch = acc := by
          unfold convAccum
          rw [hpch, Bool.or_false, if_pos hin]
        rw [hacc, ih acc hpr', List.filter_cons]
        simp [hin]
      · have hacc : convAccum acc ch =
            acc ++ [(ch.conversationId, mkSummary ch)] := by
          unfold convAccum
          rw [hpch, Bool.or_false, if_neg hin]
        rw [hacc, ih _ hpr', List.filter_cons]
        simp only [hin, Bool.not_false, if_pos]
        rw [firstPerCid]
        have hflt : chs.filter (fun x =>
            !((acc ++ [(ch.conversationId, mkSummary ch)]).any
              (fun kv => kv.1 == x.conversationId))) =
            (chs.filter (fun x =>
              !(acc.any (fun kv => kv.1 == x.conversationId)))).filter
              (fun x => !(x.conversationId == ch.conversationId)) := by
          rw [List.filter_filter]
          refine List.filter_congr ?_
          intro x _
          rw [List.any_append]
          simp only [List.any_cons, List.any_nil, Bool.or_false,
            Bool.not_or]
          rw [Bool.and_comm]
          have : (ch.conversationId == x.conversationId) =
              (x.conversationId == ch.conversationId) := by
            cases h : (ch.conversationId == x.conversationId) <;>
              cases h2 : (x.conversationId == ch.conversationId) <;>
                simp_all [beq_iff_eq]
          rw [this]
        rw [hflt]
        simp [mkSummary]

theorem listConversationsReduce_eq_firstPerCid (u : Nat) (st : List Message)
    (hkeys : ∀ m ∈ st, isArrayIndex m.conversationId = false ∧
      protoKeys.contains m.conversationId = false) :
    listConversationsReduce u st =
      firstPerCid (List.insertionSort tsGe
        (st.filter (fun m => m.owner == some u))) := by
  have hsub : ∀ m2 ∈ List.insertionSort tsGe
      (st.filter (fun m => m.owner == some u)), m2 ∈ st := by
    intro m2 hm2
    exact (List.mem_filter.mp
      ((List.perm_insertionSort tsGe _).mem_iff.mp hm2)).1
  have hacc : ((List.insertionSort tsGe
      (st.filter (fun m => m.owner == some u))).foldl convAccum []).map
        (fun kv => kv.2) =
      firstPerCid (List.insertionSort tsGe
        (st.filter (fun m => m.owner == some u))) := by
    rw [foldl_convAccum_eq_firstPerCid _ []
      (fun m hm => (hkeys m (hsub m hm)).2)]
    simp
  have hnoidx : ∀ kv ∈ (List.insertionSort tsGe
      (st.filter (fun m => m.owner == some u))).foldl convAccum [],
      isArrayIndex kv.1 = false := by
    intro kv hkv
    rcases foldl_convAccum_mem _ [] kv hkv with h0 | ⟨m2, hm2, rfl⟩
    · simp at h0
    · exact (hkeys m2 (hsub m2 hm2)).1
  have hLHS : listConversationsReduce u st =
      objectValues ((List.insertionSort tsGe
        (st.filter (fun m => m.owner == some u))).foldl convAccum []) := rfl
  rw [hLHS]
  unfold objectValues
  have h1 : ((List.insertionSort tsGe
      (st.filter (fun m => m.owner == some u))).foldl convAccum []).filter
        (fun kv => isArrayIndex kv.1) = [] := by
    rw [List.filter_eq_nil_iff]
    intro kv hkv
    simp [hnoidx kv hkv]
  have h2 : ((List.insertionSort tsGe
      (st.filter (fun m => m.owner == some u))).foldl convAccum []).filter
        (fun kv => !(isArrayIndex kv.1)) =
      (List.insertionSort tsGe
        (st.filter (fun m => m.owner == some u))).foldl convAccum [] := by
    rw [List.filter_eq_self]
    intro kv hkv
    simp [hnoidx kv hkv]
  rw [h1, h2, show List.insertionSort keyNumLe
      ([] : List (String × ConvSummary)) = [] from rfl, List.nil_append]
  exact hacc

theorem firstPerCid_mem_source :
    ∀ (w : List Message), ∀ s ∈ firstPerCid w, ∃ m ∈ w, s = mkSummary m := by
  intro w
  induction w using firstPerCid.induct with
  | case1 =>
      intro s hs
      rw [firstPerCid] at hs
      exact absurd hs (List.not_mem_nil s)
  | case2 m ms ih =>
      intro s hs
      rw [firstPerCid] at hs
      rcases List.mem_cons.mp hs with rfl | hs'
      · exact ⟨m, List.mem_cons_self _ _, rfl⟩
      · obtain ⟨m', hm', hsum⟩ := ih s hs'
        exact ⟨m', List.mem_cons_of_mem _ (List.mem_filter.mp hm').1, hsum⟩

theorem firstPerCid_maxspec :
    ∀ (w : List Message), w.Pairwise tsGe →
      ∀ s ∈ firstPerCid w, ∃ m ∈ w, s = mkSummary m ∧
        ∀ m2 ∈ w, m2.conversationId = m.conversationId →
          m2.timestamp ≤ m.timestamp := by
  intro w
  induction w using firstPerCid.induct with
  | case1 =>
      intro _ s hs
      rw [firstPerCid] at hs
      exact absurd hs (List.not_mem_nil s)
  | case2 m ms ih =>
      intro hge s hs
      rw [firstPerCid] at hs
      rcases List.mem_cons.mp hs with rfl | hs'
      · refine ⟨m, List.mem_cons_self _ _, rfl, ?_⟩
        intro m2 hm2 _
        rcases List.mem_cons.mp hm2 with rfl | hm2'
        · exact le_refl _
        · exact (List.pairwise_cons.mp hge).1 m2 hm2'
      · have hge' := List.Pairwise.filter
          (fun x => !(x.conversationId == m.conversationId))
          (List.pairwise_cons.mp hge).2
        obtain ⟨m', hm', hsum, hmax⟩ := ih hge' s hs'
        have hm'ms : m' ∈ ms := (List.mem_filter.mp hm').1
        have hm'ne : m'.conversationId ≠ m.conversationId := by
          have h2 := (List.mem_filter.mp hm').2
          simpa using h2
        refine ⟨m', List.mem_cons_of_mem _ hm'ms, hsum, ?_⟩
        intro m2 hm2 hcid2
        rcases List.mem_cons.mp hm2 with rfl | hm2'
        · exact absurd hcid2.symm hm'ne
        · have hmf : m2 ∈ ms.filter
              (fun x => !(x.conversationId == m.conversationId)) := by
            refine List.mem_filter.mpr ⟨hm2', ?_⟩
            simp only [Bool.not_eq_eq_eq_not, Bool.not_true,
              beq_eq_false_iff_ne, ne_eq]
            rw [hcid2]
            exact hm'ne
          exact hmax m2 hmf hcid2

theorem firstPerCid_pairwise_updGt :
    ∀ (w : List Message), w.Pairwise tsGt →
      (firstPerCid w).Pairwise updGt := by
  intro w
  induction w using firstPerCid.induct with
  | case1 =>
      intro _
      rw [firstPerCid]
      exact List.Pairwise.nil
  | case2 m ms ih =>
      intro hgt
      rw [firstPerCid]
      refine List.pairwise_cons.mpr ⟨?_,
        ih (List.Pairwise.filter _ (List.pairwise_cons.mp hgt).2)⟩
      intro s hs
      obtain ⟨m', hm', rfl⟩ := firstPerCid_mem_source _ s hs
      have hm'ms : m' ∈ ms := (List.mem_filter.mp hm').1
      exact (List.pairwise_cons.mp hgt).1 m' hm'ms

theorem firstPerCid_cid_mem :
    ∀ (w : List Message) (c : String),
      c ∈ (firstPerCid w).map ConvSummary.conversationId ↔
        ∃ m ∈ w, m.conversationId = c := by
  intro w
  induction w using firstPerCid.induct with
  | case1 =>
      intro c
      rw [firstPerCid]
      simp
  | case2 m ms ih =>
      intro c
      rw [firstPerCid]
      simp only [List.map_cons, List.mem_cons]
      constructor
      · rintro (rfl | hc)
        · exact ⟨m, Or.inl rfl, rfl⟩
        · obtain ⟨m', hm', hcid⟩ := (ih c).mp hc
          exact ⟨m', Or.inr (List.mem_filter.mp hm').1, hcid⟩
      · rintro ⟨m2, hm2, rfl⟩
        rcases hm2 with rfl | hm2'
        · exact Or.inl rfl
        · by_cases hc : m2.conversationId = m.conversationId
          · exact Or.inl hc
          · refine Or.inr ((ih m2.conversationId).mpr ?_)
            exact ⟨m2, List.mem_filter.mpr ⟨hm2', by simp [hc]⟩, rfl⟩

theorem firstPerCid_cid_nodup :
    ∀ (w : List Message),
      ((firstPerCid w).map ConvSummary.conversationId).Nodup := by
  intro w
  induction w using firstPerCid.induct with
  | case1 =>
      rw [firstPerCid]
      simp
  | case2 m ms ih =>
      rw [firstPerCid]
      simp only [List.map_cons]
      refine List.nodup_cons.mpr ⟨?_, ih⟩
      intro hmem
      obtain ⟨m', hm', hcid⟩ := (firstPerCid_cid_mem _ _).mp hmem
      have h2 := (List.mem_filter.mp hm').2
      simp only [Bool.not_eq_eq_eq_not, Bool.not_true,
        beq_eq_false_iff_ne, ne_eq] at h2
      exact h2 hcid

theorem max_message_unique {S : List Message}
    (hts : S.Pairwise (fun x y => x.timestamp ≠ y.timestamp))
    {c : String} {m m' : Message}
    (hm : m ∈ S) (hmc : m.conversationId = c)
    (hmax : ∀ m2 ∈ S, m2.conversationId = c → m2.timestamp ≤ m.timestamp)
    (hm' : m' ∈ S) (hmc' : m'.conversationId = c)
    (hmax' : ∀ m2 ∈ S, m2.conversationId = c →
      m2.timestamp ≤ m'.timestamp) :
    m = m' := by
  by_contra hne
  have h1 := hmax m' hm' hmc'
  have h2 := hmax' m hm hmc
  have heq : m.timestamp = m'.timestamp := le_antisymm h2 h1
  exact List.Pairwise.forall (fun _ _ h => Ne.symm h) hts hm hm' hne heq

/-- C9 (amended): on a store whose messages all belong to one user, whose
timestamps are pairwise distinct, and none of whose conversationIds is an
ECMAScript array-index string or an Object.prototype property name, the
aggregation-pipeline implementation of listConversations and the
in-process reduce implementation return the same sequence of summaries.
Without the key proviso the sequences differ (see the counterexample):
Object.values emits array-index conversationIds first in ascending numeric
order, and a prototype-named conversationId never at all. -/
theorem agg_reduce_equivalent (u : Nat) (st : List Message)
    (hown : ∀ m ∈ st, m.owner = some u)
    (hts : st.Pairwise (fun x y => x.timestamp ≠ y.timestamp))
    (hkeys : ∀ m ∈ st, isArrayIndex m.conversationId = false ∧
      protoKeys.contains m.conversationId = false) :
    listConversations none st = listConversationsReduce u st := by
  have hfilu : st.filter (fun m => m.owner == some u) = st :=
    List.filter_eq_self.mpr (fun m hm => by simp [hown m hm])
  have hR : listConversationsReduce u st =
      firstPerCid (List.insertionSort tsGe st) := by
    rw [listConversationsReduce_eq_firstPerCid u st hkeys, hfilu]
  have hwperm : (List.insertionSort tsGe st).Perm st :=
    List.perm_insertionSort _ _
  have hwge : (List.insertionSort tsGe st).Pairwise tsGe :=
    List.sorted_insertionSort _ _
  have hwne : (List.insertionSort tsGe st).Pairwise
      (fun x y => x.timestamp ≠ y.timestamp) :=
    (hwperm.pairwise_iff (fun h => Ne.symm h)).mpr hts
  have hwgt : (List.insertionSort tsGe st).Pairwise tsGt :=
    (hwge.and hwne).imp (fun h => lt_of_le_of_ne h.1 (Ne.symm h.2))
  obtain ⟨hAnodup, hAmem, hAsum, hAsorted⟩ := listConversations_char none st
  have hRmax : ∀ s ∈ listConversationsReduce u st, ∃ m ∈ st,
      s = mkSummary m ∧
      ∀ m2 ∈ st, m2.conversationId = m.conversationId →
        m2.timestamp ≤ m.timestamp := by
    intro s hs
    rw [hR] at hs
    obtain ⟨m, hm, hsum, hmax⟩ := firstPerCid_maxspec _ hwge s hs
    refine ⟨m, hwperm.mem_iff.mp hm, hsum, ?_⟩
    intro m2 hm2 hc
    exact hmax m2 (hwperm.mem_iff.mpr hm2) hc
  have hRcidmem : ∀ c,
      c ∈ (listConversationsReduce u st).map ConvSummary.conversationId ↔
        ∃ m ∈ st, m.conversationId = c := by
    intro c
    rw [hR, firstPerCid_cid_mem]
    constructor
    · rintro ⟨m, hm, h⟩
      exact ⟨m, hwperm.mem_iff.mp hm, h⟩
    · rintro ⟨m, hm, h⟩
      exact ⟨m, hwperm.mem_iff.mpr hm, h⟩
  have hRcidnodup :
      ((listConversationsReduce u st).map ConvSummary.conversationId).Nodup := by
    rw [hR]
    exact firstPerCid_cid_nodup _
  have hRgt : (listConversationsReduce u st).Pairwise updGt := by
    rw [hR]
    exact firstPerCid_pairwise_updGt _ hwgt
  have hAmax : ∀ s ∈ listConversations none st, ∃ m ∈ st,
      s = mkSummary m ∧
      ∀ m2 ∈ st, m2.conversationId = m.conversationId →
        m2.timestamp ≤ m.timestamp := by
    intro s hs
    obtain ⟨m, hm, -, hcid, htext, hts2, hmax⟩ := hAsum s hs
    refine ⟨m, hm, ?_, ?_⟩
    · cases s with
      | mk a b c2 =>
          simp only [mkSummary, ConvSummary.mk.injEq]
          exact ⟨hcid.symm, htext.symm, hts2.symm⟩
    · intro m2 hm2 hc
      exact hmax m2 hm2 rfl (hc.trans hcid)
  have hmemAR : ∀ s, s ∈ listConversations none st ↔
      s ∈ listConversationsReduce u st := by
    intro s
    constructor
    · intro hs
      obtain ⟨m, hm, hsum, hmax⟩ := hAmax s hs
      have hcin : m.conversationId ∈
          (listConversationsReduce u st).map ConvSummary.conversationId :=
        (hRcidmem m.conversationId).mpr ⟨m, hm, rfl⟩
      obtain ⟨s', hs', hcid'⟩ := List.mem_map.mp hcin
      obtain ⟨m', hm', hsum', hmax'⟩ := hRmax s' hs'
      have hcideq : m'.conversationId = m.conversationId := by
        rw [hsum'] at hcid'
        exact hcid'
      have hmm : m = m' :=
        max_message_unique hts hm rfl hmax hm' hcideq
          (fun m2 h2 hc => hmax' m2 h2 (hc.trans hcideq.symm))
      rw [hsum, hmm, ← hsum']
      exact hs'
    · intro hs
      obtain ⟨m, hm, hsum, hmax⟩ := hRmax s hs
      have hcin : m.conversationId ∈
          (listConversations none st).map ConvSummary.conversationId :=
        (hAmem m.conversationId).mpr ⟨m, hm, rfl, rfl⟩
      obtain ⟨s', hs', hcid'⟩ := List.mem_map.mp hcin
      obtain ⟨m', hm', hsum', hmax'⟩ := hAmax s' hs'
      have hcideq : m'.conversationId = m.conversationId := by
        rw [hsum'] at hcid'
        exact hcid'
      have hmm : m = m' :=
        max_message_unique hts hm rfl hmax hm' hcideq
          (fun m2 h2 hc => hmax' m2 h2 (hc.trans hcideq.symm))
      rw [hsum, hmm, ← hsum']
      exact hs'
  have hAnodup2 : (listConversations none st).Nodup :=
    List.Nodup.of_map _ hAnodup
  have hRnodup2 : (listConversationsReduce u st).Nodup :=
    List.Nodup.of_map _ hRcidnodup
  have hperm : (listConversations none st).Perm
      (listConversationsReduce u st) :=
    (List.perm_ext_iff_of_nodup hAnodup2 hRnodup2).mpr hmemAR
  have hAcidne : (listConversations none st).Pairwise
      (fun s1 s2 => s1.conversationId ≠ s2.conversationId) :=
    List.pairwise_map.mp hAnodup
  have hAgt : (listConversations none st).Pairwise updGt := by
    refine (hAsorted.and hAcidne).imp_of_mem ?_
    rintro s1 s2 hs1 hs2 ⟨hge, hne⟩
    obtain ⟨m1, hm1, hsum1, hmax1⟩ := hAmax s1 hs1
    obtain ⟨m2, hm2, hsum2, hmax2⟩ := hAmax s2 hs2
    have hmne : m1 ≠ m2 := by
      intro hEq
      apply hne
      rw [hsum1, hsum2, hEq]
    have htsne : m1.timestamp ≠ m2.timestamp :=
      List.Pairwise.forall (fun _ _ h => Ne.symm h) hts hm1 hm2 hmne
    subst hsum1
    subst hsum2
    have hge' : m2.timestamp ≤ m1.timestamp := hge
    show m2.timestamp < m1.timestamp
    exact lt_of_le_of_ne hge' (Ne.symm htsne)
  exact List.eq_of_perm_of_sorted hperm hAgt hRgt

/-- C9 counterexample: with array-index conversationIds "1" and "2" and
timestamps 1 < 2 for one user (all distinct), the pipeline answers the
groups in descending-updatedAt order [c2, c1], but the reduce handler's
Object.values enumerates the array-index keys in ascending numeric order,
answering [c1, c2]: the two implementations disagree on the sequence. -/
theorem agg_reduce_order_differs :
    (∀ m ∈ [(⟨some 1, "1", "user", "a", 1⟩ : Message),
            ⟨some 1, "2", "user", "b", 2⟩], m.owner = some 1) ∧
    ([(⟨some 1, "1", "user", "a", 1⟩ : Message),
      ⟨some 1, "2", "user", "b", 2⟩].Pairwise
        (fun x y => x.timestamp ≠ y.timestamp)) ∧
    listConversations none
        [(⟨some 1, "1", "user", "a", 1⟩ : Message),
         ⟨some 1, "2", "user", "b", 2⟩] =
      [⟨"2", "b", 2⟩, ⟨"1", "a", 1⟩] ∧
    listConversationsReduce 1
        [(⟨some 1, "1", "user", "a", 1⟩ : Message),
         ⟨some 1, "2", "user", "b", 2⟩] =
      [⟨"1", "a", 1⟩, ⟨"2", "b", 2⟩] ∧
    listConversations none
        [(⟨some 1, "1", "user", "a", 1⟩ : Message),
         ⟨some 1, "2", "user", "b", 2⟩] ≠
      listConversationsReduce 1
        [(⟨some 1, "1", "user", "a", 1⟩ : Message),
         ⟨some 1, "2", "user", "b", 2⟩] :=
  ⟨by decide, by decide, by decide, by decide, by decide⟩

/-- Witness for C9 at a concrete input: three messages of user 1 in two
conversations, all timestamps distinct, no array-index or prototype-named
conversationId. -/
theorem agg_reduce_equivalent_witness :
    (∀ m ∈ [(⟨some 1, "c1", "user", "hi", 5⟩ : Message),
            ⟨some 1, "c2", "user", "aa", 6⟩,
            ⟨some 1, "c1", "ai", "yo", 7⟩], m.owner = some 1) ∧
    ([(⟨some 1, "c1", "user", "hi", 5⟩ : Message),
      ⟨some 1, "c2", "user", "aa", 6⟩,
      ⟨some 1, "c1", "ai", "yo", 7⟩].Pairwise
        (fun x y => x.timestamp ≠ y.timestamp)) ∧
    (∀ m ∈ [(⟨some 1, "c1", "user", "hi", 5⟩ : Message),
            ⟨some 1, "c2", "user", "aa", 6⟩,
            ⟨some 1, "c1", "ai", "yo", 7⟩],
      isArrayIndex m.conversationId = false ∧
      protoKeys.contains m.conversationId = false) ∧
    listConversations none
        [(⟨some 1, "c1", "user", "hi", 5⟩ : Message),
         ⟨some 1, "c2", "user", "aa", 6⟩,
         ⟨some 1, "c1", "ai", "yo", 7⟩] =
      listConversationsReduce 1
        [(⟨some 1, "c1", "user", "hi", 5⟩ : Message),
         ⟨some 1, "c2", "user", "aa", 6⟩,
         ⟨some 1, "c1", "ai", "yo", 7⟩] :=
  ⟨by decide, by decide, by decide,
   agg_reduce_equivalent 1 _ (by decide) (by decide) (by decide)⟩

end ImpExpChat
